import Mathlib

/-!
# The node-class table of `opto/classes.hpp`

`classes.hpp` is an X-macro table: a sequence of lines `macro(X)` and
`shmacro(X)`.  A consumer defines `macro` (and `optionalmacro`) and then
includes the file; the preprocessor replaces every line by the consumer's
expansion.  The file itself defines `shmacro` (lines 294-298):

    #if INCLUDE_SHENANDOAHGC
    #define shmacro(x) macro(x)
    #else
    #define shmacro(x) optionalmacro(x)
    #endif

The embedding keeps the table as data (one constructor per line, in file
order) and the preprocessor as a function over it.  The names `macro`,
`shmacro` and `optionalmacro` carry a trailing underscore here.
-/

namespace Classes

/-- One line of the table: `macro(x)` or `shmacro(x)`. -/
inductive Decl where
  | macro_ (x : String)
  | shmacro_ (x : String)
  deriving DecidableEq, Repr

/-- The argument of a table line. -/
def Decl.name : Decl → String
  | .macro_ x => x
  | .shmacro_ x => x

/-- Whether the line is written with `shmacro`. -/
def Decl.isSh : Decl → Bool
  | .macro_ _ => false
  | .shmacro_ _ => true

/-- The table of classes.hpp, lines 30-490, one element per line, in file order. -/
def classes : List Decl := [
  Decl.macro_ "AbsD",
  Decl.macro_ "AbsF",
  Decl.macro_ "AbsI",
  Decl.macro_ "AbsL",
  Decl.macro_ "AddD",
  Decl.macro_ "AddF",
  Decl.macro_ "AddI",
  Decl.macro_ "AddL",
  Decl.macro_ "AddP",
  Decl.macro_ "Allocate",
  Decl.macro_ "AllocateArray",
  Decl.macro_ "AndI",
  Decl.macro_ "AndL",
  Decl.macro_ "ArrayCopy",
  Decl.macro_ "AryEq",
  Decl.macro_ "AtanD",
  Decl.macro_ "Binary",
  Decl.macro_ "Blackhole",
  Decl.macro_ "Bool",
  Decl.macro_ "BoxLock",
  Decl.macro_ "ReverseBytesI",
  Decl.macro_ "ReverseBytesL",
  Decl.macro_ "ReverseBytesUS",
  Decl.macro_ "ReverseBytesS",
  Decl.macro_ "CProj",
  Decl.macro_ "CacheWB",
  Decl.macro_ "CacheWBPreSync",
  Decl.macro_ "CacheWBPostSync",
  Decl.macro_ "CallDynamicJava",
  Decl.macro_ "CallJava",
  Decl.macro_ "CallLeaf",
  Decl.macro_ "CallLeafNoFP",
  Decl.macro_ "CallLeafVector",
  Decl.macro_ "CallRuntime",
  Decl.macro_ "CallNative",
  Decl.macro_ "CallStaticJava",
  Decl.macro_ "CastDD",
  Decl.macro_ "CastFF",
  Decl.macro_ "CastII",
  Decl.macro_ "CastLL",
  Decl.macro_ "CastVV",
  Decl.macro_ "CastX2P",
  Decl.macro_ "CastP2X",
  Decl.macro_ "CastPP",
  Decl.macro_ "Catch",
  Decl.macro_ "CatchProj",
  Decl.macro_ "CheckCastPP",
  Decl.macro_ "ClearArray",
  Decl.macro_ "ConstraintCast",
  Decl.macro_ "CMoveD",
  Decl.macro_ "CMoveVD",
  Decl.macro_ "CMoveF",
  Decl.macro_ "CMoveVF",
  Decl.macro_ "CMoveI",
  Decl.macro_ "CMoveL",
  Decl.macro_ "CMoveP",
  Decl.macro_ "CMoveN",
  Decl.macro_ "CmpN",
  Decl.macro_ "CmpD",
  Decl.macro_ "CmpD3",
  Decl.macro_ "CmpF",
  Decl.macro_ "CmpF3",
  Decl.macro_ "CmpI",
  Decl.macro_ "CmpL",
  Decl.macro_ "CmpL3",
  Decl.macro_ "CmpLTMask",
  Decl.macro_ "CmpP",
  Decl.macro_ "CmpU",
  Decl.macro_ "CmpUL",
  Decl.macro_ "CompareAndSwapB",
  Decl.macro_ "CompareAndSwapS",
  Decl.macro_ "CompareAndSwapI",
  Decl.macro_ "CompareAndSwapL",
  Decl.macro_ "CompareAndSwapP",
  Decl.macro_ "CompareAndSwapN",
  Decl.macro_ "WeakCompareAndSwapB",
  Decl.macro_ "WeakCompareAndSwapS",
  Decl.macro_ "WeakCompareAndSwapI",
  Decl.macro_ "WeakCompareAndSwapL",
  Decl.macro_ "WeakCompareAndSwapP",
  Decl.macro_ "WeakCompareAndSwapN",
  Decl.macro_ "CompareAndExchangeB",
  Decl.macro_ "CompareAndExchangeS",
  Decl.macro_ "CompareAndExchangeI",
  Decl.macro_ "CompareAndExchangeL",
  Decl.macro_ "CompareAndExchangeP",
  Decl.macro_ "CompareAndExchangeN",
  Decl.macro_ "GetAndAddB",
  Decl.macro_ "GetAndAddS",
  Decl.macro_ "GetAndAddI",
  Decl.macro_ "GetAndAddL",
  Decl.macro_ "GetAndSetB",
  Decl.macro_ "GetAndSetS",
  Decl.macro_ "GetAndSetI",
  Decl.macro_ "GetAndSetL",
  Decl.macro_ "GetAndSetP",
  Decl.macro_ "GetAndSetN",
  Decl.macro_ "Con",
  Decl.macro_ "ConN",
  Decl.macro_ "ConNKlass",
  Decl.macro_ "ConD",
  Decl.macro_ "ConF",
  Decl.macro_ "ConI",
  Decl.macro_ "ConL",
  Decl.macro_ "ConP",
  Decl.macro_ "Conv2B",
  Decl.macro_ "ConvD2F",
  Decl.macro_ "ConvD2I",
  Decl.macro_ "ConvD2L",
  Decl.macro_ "ConvF2D",
  Decl.macro_ "ConvF2I",
  Decl.macro_ "ConvF2L",
  Decl.macro_ "ConvI2D",
  Decl.macro_ "ConvI2F",
  Decl.macro_ "ConvI2L",
  Decl.macro_ "ConvL2D",
  Decl.macro_ "ConvL2F",
  Decl.macro_ "ConvL2I",
  Decl.macro_ "CountedLoop",
  Decl.macro_ "CountedLoopEnd",
  Decl.macro_ "OuterStripMinedLoop",
  Decl.macro_ "OuterStripMinedLoopEnd",
  Decl.macro_ "LongCountedLoop",
  Decl.macro_ "LongCountedLoopEnd",
  Decl.macro_ "CountLeadingZerosI",
  Decl.macro_ "CountLeadingZerosL",
  Decl.macro_ "CountTrailingZerosI",
  Decl.macro_ "CountTrailingZerosL",
  Decl.macro_ "CreateEx",
  Decl.macro_ "DecodeN",
  Decl.macro_ "DecodeNKlass",
  Decl.macro_ "DivD",
  Decl.macro_ "DivF",
  Decl.macro_ "DivI",
  Decl.macro_ "DivL",
  Decl.macro_ "DivMod",
  Decl.macro_ "DivModI",
  Decl.macro_ "DivModL",
  Decl.macro_ "EncodeISOArray",
  Decl.macro_ "EncodeP",
  Decl.macro_ "EncodePKlass",
  Decl.macro_ "FastLock",
  Decl.macro_ "FastUnlock",
  Decl.macro_ "FmaD",
  Decl.macro_ "FmaF",
  Decl.macro_ "Goto",
  Decl.macro_ "Halt",
  Decl.macro_ "HasNegatives",
  Decl.macro_ "If",
  Decl.macro_ "RangeCheck",
  Decl.macro_ "IfFalse",
  Decl.macro_ "IfTrue",
  Decl.macro_ "Initialize",
  Decl.macro_ "JProj",
  Decl.macro_ "Jump",
  Decl.macro_ "JumpProj",
  Decl.macro_ "LShiftI",
  Decl.macro_ "LShiftL",
  Decl.macro_ "LoadB",
  Decl.macro_ "LoadUB",
  Decl.macro_ "LoadUS",
  Decl.macro_ "LoadD",
  Decl.macro_ "LoadD_unaligned",
  Decl.macro_ "LoadF",
  Decl.macro_ "LoadI",
  Decl.macro_ "LoadKlass",
  Decl.macro_ "LoadNKlass",
  Decl.macro_ "LoadL",
  Decl.macro_ "LoadL_unaligned",
  Decl.macro_ "LoadPLocked",
  Decl.macro_ "LoadP",
  Decl.macro_ "LoadN",
  Decl.macro_ "LoadRange",
  Decl.macro_ "LoadS",
  Decl.macro_ "Lock",
  Decl.macro_ "Loop",
  Decl.macro_ "LoopLimit",
  Decl.macro_ "Mach",
  Decl.macro_ "MachNullCheck",
  Decl.macro_ "MachProj",
  Decl.macro_ "MulAddS2I",
  Decl.macro_ "MaxI",
  Decl.macro_ "MaxL",
  Decl.macro_ "MaxD",
  Decl.macro_ "MaxF",
  Decl.macro_ "MemBarAcquire",
  Decl.macro_ "LoadFence",
  Decl.macro_ "SetVectMaskI",
  Decl.macro_ "MemBarAcquireLock",
  Decl.macro_ "MemBarCPUOrder",
  Decl.macro_ "MemBarRelease",
  Decl.macro_ "StoreFence",
  Decl.macro_ "StoreStoreFence",
  Decl.macro_ "MemBarReleaseLock",
  Decl.macro_ "MemBarVolatile",
  Decl.macro_ "MemBarStoreStore",
  Decl.macro_ "MergeMem",
  Decl.macro_ "MinI",
  Decl.macro_ "MinL",
  Decl.macro_ "MinF",
  Decl.macro_ "MinD",
  Decl.macro_ "ModD",
  Decl.macro_ "ModF",
  Decl.macro_ "ModI",
  Decl.macro_ "ModL",
  Decl.macro_ "MoveI2F",
  Decl.macro_ "MoveF2I",
  Decl.macro_ "MoveL2D",
  Decl.macro_ "MoveD2L",
  Decl.macro_ "MulD",
  Decl.macro_ "MulF",
  Decl.macro_ "MulHiL",
  Decl.macro_ "UMulHiL",
  Decl.macro_ "MulI",
  Decl.macro_ "MulL",
  Decl.macro_ "Multi",
  Decl.macro_ "NegI",
  Decl.macro_ "NegL",
  Decl.macro_ "NegD",
  Decl.macro_ "NegF",
  Decl.macro_ "NeverBranch",
  Decl.macro_ "OnSpinWait",
  Decl.macro_ "Opaque1",
  Decl.macro_ "OpaqueLoopInit",
  Decl.macro_ "OpaqueLoopStride",
  Decl.macro_ "Opaque2",
  Decl.macro_ "Opaque3",
  Decl.macro_ "Opaque4",
  Decl.macro_ "ProfileBoolean",
  Decl.macro_ "OrI",
  Decl.macro_ "OrL",
  Decl.macro_ "OverflowAddI",
  Decl.macro_ "OverflowSubI",
  Decl.macro_ "OverflowMulI",
  Decl.macro_ "OverflowAddL",
  Decl.macro_ "OverflowSubL",
  Decl.macro_ "OverflowMulL",
  Decl.macro_ "PCTable",
  Decl.macro_ "Parm",
  Decl.macro_ "PartialSubtypeCheck",
  Decl.macro_ "SubTypeCheck",
  Decl.macro_ "Phi",
  Decl.macro_ "PopCountI",
  Decl.macro_ "PopCountL",
  Decl.macro_ "PopCountVI",
  Decl.macro_ "PopCountVL",
  Decl.macro_ "PrefetchAllocation",
  Decl.macro_ "Proj",
  Decl.macro_ "RShiftI",
  Decl.macro_ "RShiftL",
  Decl.macro_ "Region",
  Decl.macro_ "Rethrow",
  Decl.macro_ "Return",
  Decl.macro_ "Root",
  Decl.macro_ "RoundDouble",
  Decl.macro_ "RoundDoubleMode",
  Decl.macro_ "RoundDoubleModeV",
  Decl.macro_ "RoundFloat",
  Decl.macro_ "RotateLeft",
  Decl.macro_ "RotateLeftV",
  Decl.macro_ "RotateRight",
  Decl.macro_ "RotateRightV",
  Decl.macro_ "SafePoint",
  Decl.macro_ "SafePointScalarObject",
  Decl.shmacro_ "ShenandoahCompareAndExchangeP",
  Decl.shmacro_ "ShenandoahCompareAndExchangeN",
  Decl.shmacro_ "ShenandoahCompareAndSwapN",
  Decl.shmacro_ "ShenandoahCompareAndSwapP",
  Decl.shmacro_ "ShenandoahWeakCompareAndSwapN",
  Decl.shmacro_ "ShenandoahWeakCompareAndSwapP",
  Decl.shmacro_ "ShenandoahIUBarrier",
  Decl.shmacro_ "ShenandoahLoadReferenceBarrier",
  Decl.macro_ "SCMemProj",
  Decl.macro_ "CopySignD",
  Decl.macro_ "CopySignF",
  Decl.macro_ "SignumD",
  Decl.macro_ "SignumF",
  Decl.macro_ "SqrtD",
  Decl.macro_ "SqrtF",
  Decl.macro_ "Start",
  Decl.macro_ "StartOSR",
  Decl.macro_ "StoreB",
  Decl.macro_ "StoreC",
  Decl.macro_ "StoreCM",
  Decl.macro_ "StorePConditional",
  Decl.macro_ "StoreIConditional",
  Decl.macro_ "StoreLConditional",
  Decl.macro_ "StoreD",
  Decl.macro_ "StoreF",
  Decl.macro_ "StoreI",
  Decl.macro_ "StoreL",
  Decl.macro_ "StoreP",
  Decl.macro_ "StoreN",
  Decl.macro_ "StoreNKlass",
  Decl.macro_ "StrComp",
  Decl.macro_ "StrCompressedCopy",
  Decl.macro_ "StrEquals",
  Decl.macro_ "StrIndexOf",
  Decl.macro_ "StrIndexOfChar",
  Decl.macro_ "StrInflatedCopy",
  Decl.macro_ "SubD",
  Decl.macro_ "SubF",
  Decl.macro_ "SubI",
  Decl.macro_ "SubL",
  Decl.macro_ "TailCall",
  Decl.macro_ "TailJump",
  Decl.macro_ "MacroLogicV",
  Decl.macro_ "ThreadLocal",
  Decl.macro_ "Unlock",
  Decl.macro_ "URShiftB",
  Decl.macro_ "URShiftS",
  Decl.macro_ "URShiftI",
  Decl.macro_ "URShiftL",
  Decl.macro_ "XorI",
  Decl.macro_ "XorL",
  Decl.macro_ "Vector",
  Decl.macro_ "AddVB",
  Decl.macro_ "AddVS",
  Decl.macro_ "AddVI",
  Decl.macro_ "AddReductionVI",
  Decl.macro_ "AddVL",
  Decl.macro_ "AddReductionVL",
  Decl.macro_ "AddVF",
  Decl.macro_ "AddReductionVF",
  Decl.macro_ "AddVD",
  Decl.macro_ "AddReductionVD",
  Decl.macro_ "SubVB",
  Decl.macro_ "SubVS",
  Decl.macro_ "SubVI",
  Decl.macro_ "SubVL",
  Decl.macro_ "SubVF",
  Decl.macro_ "SubVD",
  Decl.macro_ "MulVB",
  Decl.macro_ "MulVS",
  Decl.macro_ "MulVI",
  Decl.macro_ "MulReductionVI",
  Decl.macro_ "MulVL",
  Decl.macro_ "MulReductionVL",
  Decl.macro_ "MulVF",
  Decl.macro_ "MulReductionVF",
  Decl.macro_ "MulVD",
  Decl.macro_ "MulReductionVD",
  Decl.macro_ "MulAddVS2VI",
  Decl.macro_ "FmaVD",
  Decl.macro_ "FmaVF",
  Decl.macro_ "DivVF",
  Decl.macro_ "DivVD",
  Decl.macro_ "AbsVB",
  Decl.macro_ "AbsVS",
  Decl.macro_ "AbsVI",
  Decl.macro_ "AbsVL",
  Decl.macro_ "AbsVF",
  Decl.macro_ "AbsVD",
  Decl.macro_ "NegVI",
  Decl.macro_ "NegVL",
  Decl.macro_ "NegVF",
  Decl.macro_ "NegVD",
  Decl.macro_ "SqrtVD",
  Decl.macro_ "SqrtVF",
  Decl.macro_ "LShiftCntV",
  Decl.macro_ "RShiftCntV",
  Decl.macro_ "LShiftVB",
  Decl.macro_ "LShiftVS",
  Decl.macro_ "LShiftVI",
  Decl.macro_ "LShiftVL",
  Decl.macro_ "RShiftVB",
  Decl.macro_ "RShiftVS",
  Decl.macro_ "RShiftVI",
  Decl.macro_ "RShiftVL",
  Decl.macro_ "URShiftVB",
  Decl.macro_ "URShiftVS",
  Decl.macro_ "URShiftVI",
  Decl.macro_ "URShiftVL",
  Decl.macro_ "AndV",
  Decl.macro_ "AndReductionV",
  Decl.macro_ "OrV",
  Decl.macro_ "OrReductionV",
  Decl.macro_ "XorV",
  Decl.macro_ "XorReductionV",
  Decl.macro_ "MinV",
  Decl.macro_ "MaxV",
  Decl.macro_ "MinReductionV",
  Decl.macro_ "MaxReductionV",
  Decl.macro_ "LoadVector",
  Decl.macro_ "LoadVectorGather",
  Decl.macro_ "LoadVectorGatherMasked",
  Decl.macro_ "StoreVector",
  Decl.macro_ "StoreVectorScatter",
  Decl.macro_ "StoreVectorScatterMasked",
  Decl.macro_ "LoadVectorMasked",
  Decl.macro_ "StoreVectorMasked",
  Decl.macro_ "VectorCmpMasked",
  Decl.macro_ "VectorMaskGen",
  Decl.macro_ "VectorMaskOp",
  Decl.macro_ "VectorMaskTrueCount",
  Decl.macro_ "VectorMaskFirstTrue",
  Decl.macro_ "VectorMaskLastTrue",
  Decl.macro_ "VectorMaskToLong",
  Decl.macro_ "VectorLongToMask",
  Decl.macro_ "Pack",
  Decl.macro_ "PackB",
  Decl.macro_ "PackS",
  Decl.macro_ "PackI",
  Decl.macro_ "PackL",
  Decl.macro_ "PackF",
  Decl.macro_ "PackD",
  Decl.macro_ "Pack2L",
  Decl.macro_ "Pack2D",
  Decl.macro_ "ReplicateB",
  Decl.macro_ "ReplicateS",
  Decl.macro_ "ReplicateI",
  Decl.macro_ "ReplicateL",
  Decl.macro_ "ReplicateF",
  Decl.macro_ "ReplicateD",
  Decl.macro_ "Extract",
  Decl.macro_ "ExtractB",
  Decl.macro_ "ExtractUB",
  Decl.macro_ "ExtractC",
  Decl.macro_ "ExtractS",
  Decl.macro_ "ExtractI",
  Decl.macro_ "ExtractL",
  Decl.macro_ "ExtractF",
  Decl.macro_ "ExtractD",
  Decl.macro_ "Digit",
  Decl.macro_ "LowerCase",
  Decl.macro_ "UpperCase",
  Decl.macro_ "Whitespace",
  Decl.macro_ "VectorBox",
  Decl.macro_ "VectorBoxAllocate",
  Decl.macro_ "VectorUnbox",
  Decl.macro_ "VectorMaskWrapper",
  Decl.macro_ "VectorMaskCmp",
  Decl.macro_ "VectorMaskCast",
  Decl.macro_ "VectorTest",
  Decl.macro_ "VectorBlend",
  Decl.macro_ "VectorRearrange",
  Decl.macro_ "VectorLoadMask",
  Decl.macro_ "VectorLoadShuffle",
  Decl.macro_ "VectorLoadConst",
  Decl.macro_ "VectorStoreMask",
  Decl.macro_ "VectorReinterpret",
  Decl.macro_ "VectorCast",
  Decl.macro_ "VectorCastB2X",
  Decl.macro_ "VectorCastS2X",
  Decl.macro_ "VectorCastI2X",
  Decl.macro_ "VectorCastL2X",
  Decl.macro_ "VectorCastF2X",
  Decl.macro_ "VectorCastD2X",
  Decl.macro_ "VectorUCastB2X",
  Decl.macro_ "VectorUCastS2X",
  Decl.macro_ "VectorUCastI2X",
  Decl.macro_ "VectorInsert",
  Decl.macro_ "MaskAll",
  Decl.macro_ "AndVMask",
  Decl.macro_ "OrVMask",
  Decl.macro_ "XorVMask"
]

/-- The names of the table, in file order. -/
def classNames : List String := classes.map Decl.name

/-! ## The preprocessor -/

/-- Expansion of one table line.  `macro_` and `optionalmacro_` are the consumer's
definitions of `macro` and `optionalmacro`; the gate `INCLUDE_SHENANDOAHGC` selects the
definition of `shmacro` made at lines 294-298. -/
def expandDecl {α : Type} (INCLUDE_SHENANDOAHGC : Bool) (macro_ optionalmacro_ : String → List α) :
    Decl → List α
  | Decl.macro_ x => macro_ x
  | Decl.shmacro_ x => if INCLUDE_SHENANDOAHGC then macro_ x else optionalmacro_ x

/-- Expansion of a whole table: the expansions of its lines, concatenated in file order. -/
def expand {α : Type} (INCLUDE_SHENANDOAHGC : Bool) (macro_ optionalmacro_ : String → List α)
    (table : List Decl) : List α :=
  table.flatMap (expandDecl INCLUDE_SHENANDOAHGC macro_ optionalmacro_)

/-- Modelled from the spec: the consumer's definition of `optionalmacro`, which classes.hpp
uses but does not define.  In the default policy an excluded optional entry "consumes no
opcode slot and produces no artifact row": the expansion is empty. -/
def optionalmacroDefault {α : Type} : String → List α := fun _ => []

/-- A consumer whose transform maps each entry to exactly one artifact element. -/
def consumer {α : Type} (transform : String → α) : String → List α := fun x => [transform x]

/-- The artifact a consumer with the given transform obtains by including a table. -/
def generateFrom {α : Type} (table : List Decl) (INCLUDE_SHENANDOAHGC : Bool)
    (transform : String → α) : List α :=
  expand INCLUDE_SHENANDOAHGC (consumer transform) optionalmacroDefault table

/-- The active sequence of a table: the names the identity consumer sees. -/
def activeOf (table : List Decl) (INCLUDE_SHENANDOAHGC : Bool) : List String :=
  generateFrom table INCLUDE_SHENANDOAHGC id

/-- The active sequence of classes.hpp. -/
def activeSequence (INCLUDE_SHENANDOAHGC : Bool) : List String :=
  activeOf classes INCLUDE_SHENANDOAHGC

/-- The artifact of a consumer of classes.hpp. -/
def generate {α : Type} (INCLUDE_SHENANDOAHGC : Bool) (transform : String → α) : List α :=
  generateFrom classes INCLUDE_SHENANDOAHGC transform

/-- The name-table consumer: `macro(x)` becomes the string literal of `x`. -/
def nameTable (INCLUDE_SHENANDOAHGC : Bool) : List String :=
  generate INCLUDE_SHENANDOAHGC (fun x => x)

/-- Values of a C++ enumeration whose first enumerator has value `start`: every
enumerator is one more than the one before it. -/
def enumFrom (start : Nat) : List String → List (String × Nat)
  | [] => []
  | x :: xs => (x, start) :: enumFrom (start + 1) xs

/-- The enumeration consumer: `macro(x)` becomes an enumerator, numbered from 0. -/
def opcodes (INCLUDE_SHENANDOAHGC : Bool) : List (String × Nat) :=
  enumFrom 0 (generate INCLUDE_SHENANDOAHGC (fun x => x))

/-- The position the enumeration consumer assigns to a name, if it assigns one. -/
def index_of (INCLUDE_SHENANDOAHGC : Bool) (n : String) : Option Nat :=
  (opcodes INCLUDE_SHENANDOAHGC).lookup n

/-- The names declared with `shmacro`, in file order. -/
def shNames : List String := (classes.filter Decl.isSh).map Decl.name

/-! ## The registry of the specification -/

/-- Inclusion mode of an entry. -/
inductive InclusionMode where
  | Always
  | Optional (gate : String)
  deriving DecidableEq, Repr

/-- An entry of the registry. -/
structure Entry where
  name : String
  mode : InclusionMode
  deriving DecidableEq, Repr

/-- The entry a table line declares: `macro(x)` is always included, `shmacro(x)` is
optional on the capability `INCLUDE_SHENANDOAHGC`. -/
def Decl.toEntry : Decl → Entry
  | Decl.macro_ x => Entry.mk x InclusionMode.Always
  | Decl.shmacro_ x => Entry.mk x (InclusionMode.Optional "INCLUDE_SHENANDOAHGC")

/-- The registry declared by classes.hpp. -/
def registry : List Entry := classes.map Decl.toEntry

/-- Whether an entry is included under a gate mapping: `Always` is always included,
`Optional gate` is included iff the mapped boolean is true. -/
def Entry.isActive (gates : String → Bool) (e : Entry) : Bool :=
  match e.mode with
  | InclusionMode.Always => true
  | InclusionMode.Optional gate => gates gate

/-- The gate classifier as the specification words it: the entries, in table order,
whose mode is `Always` or `Optional` with a true gate. -/
def gateClassifier (gates : String → Bool) (r : List Entry) : List Entry :=
  r.filter (Entry.isActive gates)

/-! ## Order and shape of names -/

/-- Lexicographic comparison of character sequences by code point (the order of
`strcmp`): a proper initial segment is smaller. -/
def lexLe : List Char → List Char → Bool
  | [], _ => true
  | _ :: _, [] => false
  | a :: as, b :: bs => decide (a.toNat < b.toNat) || (a.toNat == b.toNat && lexLe as bs)

/-- Lexicographic "less than or equal" on names. -/
def nameLe (a b : String) : Bool := lexLe a.data b.data

/-- The same comparison after mapping ASCII upper case to lower case. -/
def nameLeNoCase (a b : String) : Bool :=
  lexLe (a.data.map Char.toLower) (b.data.map Char.toLower)

/-- The positions `i` at which an adjacent pair `(l[i], l[i+1])` is out of order. -/
def descentsFrom (le : String → String → Bool) (i : Nat) : List String → List Nat
  | a :: b :: l =>
    if le a b then descentsFrom le (i + 1) (b :: l) else i :: descentsFrom le (i + 1) (b :: l)
  | _ => []

/-- ASCII letter. -/
def isLetter (c : Char) : Bool :=
  (65 ≤ c.toNat && c.toNat ≤ 90) || (97 ≤ c.toNat && c.toNat ≤ 122)

/-- ASCII digit. -/
def isDigit (c : Char) : Bool := 48 ≤ c.toNat && c.toNat ≤ 57

/-- Character allowed in an identifier: ASCII letter, digit or underscore. -/
def isIdentChar (c : Char) : Bool := isLetter c || isDigit c || c.toNat == 95

/-- Well-formed identifier: non-empty, only identifier characters, no leading digit. -/
def isIdentifier (s : String) : Bool :=
  match s.data with
  | [] => false
  | c :: cs => !isDigit c && isIdentChar c && cs.all isIdentChar

/-! ## A distinctness check by sorting

Names are packed into numbers, the numbers are merge-sorted, and the sorted list
is checked to be strictly increasing. -/

/-- Packs the characters of a name into one number. -/
def code (s : String) : Nat := s.data.foldl (fun a c => a * 256 + c.toNat) 1

/-- Merge of two lists, with a step budget. -/
def mergeFuel : Nat → List Nat → List Nat → List Nat
  | 0, xs, ys => xs ++ ys
  | _ + 1, [], ys => ys
  | _ + 1, x :: xs, [] => x :: xs
  | n + 1, x :: xs, y :: ys =>
    if x ≤ y then x :: mergeFuel n xs (y :: ys) else y :: mergeFuel n (x :: xs) ys

/-- One bottom-up pass: neighbouring runs are merged two by two. -/
def mergePairs : List (List Nat) → List (List Nat)
  | a :: b :: rest => mergeFuel (a.length + b.length) a b :: mergePairs rest
  | l => l

/-- Repeated passes. -/
def mergePasses : Nat → List (List Nat) → List (List Nat)
  | 0, ls => ls
  | n + 1, ls => mergePasses n (mergePairs ls)

/-- A rearrangement of `l`, sorted when the budget suffices. -/
def sortCodes (l : List Nat) : List Nat :=
  (mergePasses l.length (l.map fun x => [x])).flatten

/-- Adjacent elements strictly increase. -/
def strictInc : List Nat → Bool
  | a :: b :: l => decide (a < b) && strictInc (b :: l)
  | _ => true

/-! ## Table construction in the specification -/

/-- Errors of table construction. -/
inductive RegistryError where
  | InvalidIdentifierError (name : String)
  | DuplicateEntryError (name : String) (firstIndex secondIndex : Nat)
  | UnknownGateError (gateName entryName : String)
  deriving DecidableEq, Repr

/-- Modelled from the spec: `register(name, mode)` of section 4.1, which is not in
classes.hpp.  It appends an entry and fails with `InvalidIdentifierError` if the name is
not a well-formed identifier. -/
def register (table : List Entry) (name : String) (mode : InclusionMode) :
    Except RegistryError (List Entry) :=
  if isIdentifier name then Except.ok (table ++ [Entry.mk name mode])
  else Except.error (RegistryError.InvalidIdentifierError name)

/-- Modelled from the spec: the search for "the first offending duplicate" of section 4.1
and scenario 3, which is not in classes.hpp.  The names are scanned in order; `seen` holds
the names already scanned.  The first name that was seen before is reported with the
index of its first occurrence and its own index. -/
def firstDuplicateFrom (seen : List String) : List String → Option (String × Nat × Nat)
  | [] => none
  | n :: rest =>
    if n ∈ seen then some (n, seen.indexOf n, seen.length)
    else firstDuplicateFrom (seen ++ [n]) rest

/-- Modelled from the spec: the search for an `Optional` entry whose gate is not in the
resolved gate set (section 4.1, scenario 4), which is not in classes.hpp. -/
def firstUnknownGate (known : List String) : List Entry → Option (String × String)
  | [] => none
  | e :: rest =>
    match e.mode with
    | InclusionMode.Always => firstUnknownGate known rest
    | InclusionMode.Optional gate =>
      if gate ∈ known then firstUnknownGate known rest else some (gate, e.name)

/-- Modelled from the spec: `finalize()` of section 4.1, which is not in classes.hpp.  It
fails with `DuplicateEntryError` on the first offending duplicate, else with
`UnknownGateError` on an `Optional` entry whose gate is missing from the gate mapping,
else it returns the frozen table. -/
def finalize (gates : List (String × Bool)) (table : List Entry) :
    Except RegistryError (List Entry) :=
  match firstDuplicateFrom [] (table.map Entry.name) with
  | some (n, i, j) => Except.error (RegistryError.DuplicateEntryError n i j)
  | none =>
    match firstUnknownGate (gates.map Prod.fst) table with
    | some (g, n) => Except.error (RegistryError.UnknownGateError g n)
    | none => Except.ok table

/-- Modelled from the spec: authoring of a registry from a declaration list (sections 3
and 6), which is not in classes.hpp: the declarations are registered in order, starting
from `table`, and the first failure aborts. -/
def registerAll (table : List Entry) :
    List (String × InclusionMode) → Except RegistryError (List Entry)
  | [] => Except.ok table
  | (n, m) :: rest =>
    match register table n m with
    | Except.ok t => registerAll t rest
    | Except.error e => Except.error e

/-- Modelled from the spec: construction of the frozen registry of one build, which is
not in classes.hpp: all declarations are registered, then the table is finalized. -/
def build (gates : List (String × Bool)) (decls : List (String × InclusionMode)) :
    Except RegistryError (List Entry) :=
  match registerAll [] decls with
  | Except.ok t => finalize gates t
  | Except.error e => Except.error e

/-- The declaration list that classes.hpp authors. -/
def declarations : List (String × InclusionMode) :=
  classes.map fun d => (d.toEntry.name, d.toEntry.mode)

/-! ## The shmacro block -/

/-- The same line declared with `macro` instead of `shmacro`. -/
def Decl.asMacro : Decl → Decl
  | Decl.macro_ x => Decl.macro_ x
  | Decl.shmacro_ x => Decl.macro_ x

/-- The table of classes.hpp with every `shmacro(x)` line rewritten to `macro(x)`. -/
def classesAllMacro : List Decl := classes.map Decl.asMacro

/-- The positions of the `shmacro` lines of a table whose first line has position `i`. -/
def shPositionsFrom (i : Nat) : List Decl → List Nat
  | [] => []
  | d :: l => if d.isSh then i :: shPositionsFrom (i + 1) l else shPositionsFrom (i + 1) l

/-- Whether the characters of `p` begin the name `s`. -/
def startsWith (p s : String) : Bool := p.data.isPrefixOf s.data

/-! ## Distinctness of the names -/

theorem mergeFuel_perm (n : Nat) (xs ys : List Nat) : (mergeFuel n xs ys).Perm (xs ++ ys) := by
  induction n generalizing xs ys with
  | zero => simp [mergeFuel]
  | succ n ih =>
    cases xs with
    | nil => simp [mergeFuel]
    | cons x xs =>
      cases ys with
      | nil => simp [mergeFuel]
      | cons y ys =>
        simp only [mergeFuel]
        split
        · exact (ih xs (y :: ys)).cons x
        · refine ((ih (x :: xs) ys).cons y).trans ?_
          exact List.perm_middle.symm

theorem mergePairs_perm : ∀ ls : List (List Nat), (mergePairs ls).flatten.Perm ls.flatten
  | [] => by simp [mergePairs]
  | [a] => by simp [mergePairs]
  | a :: b :: rest => by
    simp only [mergePairs, List.flatten_cons, ← List.append_assoc]
    exact (mergeFuel_perm _ a b).append (mergePairs_perm rest)

theorem mergePasses_perm (n : Nat) (ls : List (List Nat)) :
    (mergePasses n ls).flatten.Perm ls.flatten := by
  induction n generalizing ls with
  | zero => simp [mergePasses]
  | succ n ih => exact (ih (mergePairs ls)).trans (mergePairs_perm ls)

theorem flatten_singletons (l : List Nat) : (l.map fun x => [x]).flatten = l := by
  induction l with
  | nil => rfl
  | cons a l ih => simp [ih]

theorem sortCodes_perm (l : List Nat) : (sortCodes l).Perm l := by
  have h := mergePasses_perm l.length (l.map fun x => [x])
  rwa [flatten_singletons] at h

theorem strictInc_chain : ∀ l : List Nat, strictInc l = true → List.Chain' (· < ·) l
  | [], _ => List.chain'_nil
  | [_], _ => List.chain'_singleton _
  | a :: b :: l, h => by
    simp only [strictInc, Bool.and_eq_true, decide_eq_true_eq] at h
    exact List.chain'_cons.mpr ⟨h.1, strictInc_chain (b :: l) h.2⟩

theorem strictInc_nodup (l : List Nat) (h : strictInc l = true) : l.Nodup := by
  have hp : l.Pairwise (· < ·) := List.chain'_iff_pairwise.mp (strictInc_chain l h)
  exact hp.imp (fun hab => Nat.ne_of_lt hab)

/-- A list of names is duplicate-free when its sorted codes strictly increase. -/
theorem nodup_of_sorted_codes (l : List String)
    (h : strictInc (sortCodes (l.map code)) = true) : l.Nodup :=
  List.Nodup.of_map code ((sortCodes_perm (l.map code)).nodup_iff.mp (strictInc_nodup _ h))

set_option maxRecDepth 100000 in
theorem classNames_sorted_codes : strictInc (sortCodes (classNames.map code)) = true := by
  decide!

theorem classNames_nodup_aux : classNames.Nodup :=
  nodup_of_sorted_codes classNames classNames_sorted_codes

/-- C1: the names of all entries of classes.hpp (macro and shmacro entries together) are
pairwise distinct under case-sensitive comparison: the list of names has no duplicate,
and two positions of the table that carry the same name are the same position. -/
theorem classNames_pairwise_distinct :
    classNames.Nodup ∧
    ∀ i j : Fin classNames.length, classNames.get i = classNames.get j → i = j :=
  ⟨classNames_nodup_aux, fun _ _ h => List.nodup_iff_injective_get.mp classNames_nodup_aux h⟩

/-! ## Order of the table -/

theorem descentsFrom_eq_nil (le : String → String → Bool) :
    ∀ (l : List String) (i : Nat),
      descentsFrom le i l = [] ↔ List.Chain' (fun a b => le a b = true) l
  | [], _ => by simp [descentsFrom]
  | [_], _ => by simp [descentsFrom]
  | a :: b :: l, i => by
    rw [List.chain'_cons, ← descentsFrom_eq_nil le (b :: l) (i + 1)]
    by_cases h : le a b = true <;> simp [descentsFrom, h]

/-- C2: the table is not sorted by class name.  The adjacent entries at positions 22 and
23 are `ReverseBytesUS` and `ReverseBytesS`, and the earlier one is lexicographically
greater than the later one; so the adjacent-pair ordering fails for the table, which has
131 adjacent pairs out of order, the first at position 22.  The same holds when case is
ignored. -/
theorem classNames_not_sorted :
    classNames[22]? = some "ReverseBytesUS" ∧ classNames[23]? = some "ReverseBytesS" ∧
    nameLe "ReverseBytesUS" "ReverseBytesS" = false ∧
    "ReverseBytesS" < "ReverseBytesUS" ∧
    ¬ List.Chain' (fun a b => nameLe a b = true) classNames ∧
    (descentsFrom nameLe 0 classNames).length = 131 ∧
    (descentsFrom nameLe 0 classNames).head? = some 22 ∧
    ¬ List.Chain' (fun a b => nameLeNoCase a b = true) classNames := by
  have h1 : (descentsFrom nameLe 0 classNames).length = 131 := by decide!
  have h2 : (descentsFrom nameLeNoCase 0 classNames).length = 134 := by decide!
  refine ⟨by decide!, by decide!, by decide!, String.lt_iff_toList_lt.mpr (by decide), ?_, h1,
    by decide!, ?_⟩
  · intro hc
    rw [(descentsFrom_eq_nil nameLe classNames 0).mpr hc] at h1
    exact absurd h1 (by decide)
  · intro hc
    rw [(descentsFrom_eq_nil nameLeNoCase classNames 0).mpr hc] at h2
    exact absurd h2 (by decide)

/-! ## Shape of the names -/

theorem isIdentifier_iff (s : String) :
    isIdentifier s = true ↔
      s.data ≠ [] ∧ (∀ c ∈ s.data, isLetter c = true ∨ isDigit c = true ∨ c = '_') ∧
      ∀ c, s.data.head? = some c → isDigit c = false := by
  have hu : ∀ c : Char, c.toNat = 95 ↔ c = '_' := by
    intro c
    constructor
    · intro h
      apply Char.ext
      apply UInt32.ext
      exact h
    · rintro rfl
      rfl
  unfold isIdentifier
  cases hs : s.data with
  | nil => simp
  | cons c cs =>
    simp only [Bool.and_eq_true, Bool.not_eq_true', List.all_eq_true, isIdentChar,
      Bool.or_eq_true, beq_iff_eq, hu, ne_eq, reduceCtorEq, not_false_eq_true,
      List.mem_cons, forall_eq_or_imp, List.head?_cons, Option.some.injEq, true_and, or_assoc]
    constructor
    · rintro ⟨⟨h1, h2⟩, h3⟩
      exact ⟨⟨h2, h3⟩, fun d hd => hd ▸ h1⟩
    · rintro ⟨⟨h2, h3⟩, h1⟩
      exact ⟨⟨h1 c rfl, h2⟩, h3⟩

set_option maxRecDepth 100000 in
theorem classNames_all_identifiers : classNames.all isIdentifier = true := by decide!

/-- C9: every entry name of the classes.hpp table is a well-formed identifier: it is
non-empty, each of its characters is an ASCII letter, a digit or an underscore, and its
first character is not a digit. -/
theorem classNames_wellFormed (n : String) (hn : n ∈ classNames) :
    n.data ≠ [] ∧ (∀ c ∈ n.data, isLetter c = true ∨ isDigit c = true ∨ c = '_') ∧
    ∀ c, n.data.head? = some c → isDigit c = false :=
  (isIdentifier_iff n).mp (List.all_eq_true.mp classNames_all_identifiers n hn)

/-- Witness for C9 at the first entry of the table. -/
theorem classNames_wellFormed_witness :
    "AbsD" ∈ classNames ∧
    ("AbsD".data ≠ [] ∧ (∀ c ∈ "AbsD".data, isLetter c = true ∨ isDigit c = true ∨ c = '_') ∧
      ∀ c, "AbsD".data.head? = some c → isDigit c = false) :=
  ⟨List.mem_cons_self _ _, classNames_wellFormed "AbsD" (List.mem_cons_self _ _)⟩

/-! ## The expansion of a table -/

theorem generateFrom_eq_map {α : Type} (table : List Decl) (b : Bool) (f : String → α) :
    generateFrom table b f = ((table.filter fun d => !d.isSh || b).map Decl.name).map f := by
  induction table with
  | nil => rfl
  | cons d t ih =>
    have hstep : generateFrom (d :: t) b f =
        expandDecl b (consumer f) optionalmacroDefault d ++ generateFrom t b f := by
      simp [generateFrom, expand]
    rw [hstep, ih]
    cases d <;> cases b <;>
      simp [expandDecl, consumer, optionalmacroDefault, Decl.isSh, Decl.name]

theorem activeOf_eq_filter (table : List Decl) (b : Bool) :
    activeOf table b = (table.filter fun d => !d.isSh || b).map Decl.name := by
  simp [activeOf, generateFrom_eq_map]

theorem generateFrom_eq_map_active {α : Type} (table : List Decl) (b : Bool) (f : String → α) :
    generateFrom table b f = (activeOf table b).map f := by
  rw [generateFrom_eq_map, activeOf_eq_filter]

theorem toEntry_name (d : Decl) : d.toEntry.name = d.name := by
  cases d <;> rfl

theorem toEntry_isActive (gates : String → Bool) (d : Decl) :
    d.toEntry.isActive gates = (!d.isSh || gates "INCLUDE_SHENANDOAHGC") := by
  cases d <;> simp [Decl.toEntry, Entry.isActive, Decl.isSh]

theorem gateClassifier_names (gates : String → Bool) (table : List Decl) :
    (gateClassifier gates (table.map Decl.toEntry)).map Entry.name =
      activeOf table (gates "INCLUDE_SHENANDOAHGC") := by
  rw [activeOf_eq_filter]
  induction table with
  | nil => rfl
  | cons d t ih =>
    simp only [gateClassifier, List.map_cons, List.filter_cons, toEntry_isActive] at ih ⊢
    split <;> simp [toEntry_name, ih]

theorem name_injOn {d d' : Decl} (hd : d ∈ classes) (hd' : d' ∈ classes)
    (h : d.name = d'.name) : d = d' :=
  List.inj_on_of_nodup_map classNames_nodup_aux hd hd' h

theorem mem_shNames_iff {d : Decl} (hd : d ∈ classes) : d.name ∈ shNames ↔ d.isSh = true := by
  simp only [shNames, List.mem_map, List.mem_filter]
  constructor
  · rintro ⟨d', ⟨hd', hs⟩, hn⟩
    rwa [← name_injOn hd' hd hn]
  · exact fun hs => ⟨d, ⟨hd, hs⟩, rfl⟩

theorem mem_activeSequence_iff (b : Bool) {d : Decl} (hd : d ∈ classes) :
    d.name ∈ activeSequence b ↔ (d.isSh = false ∨ b = true) := by
  simp only [activeSequence, activeOf_eq_filter, List.mem_map, List.mem_filter,
    Bool.or_eq_true, Bool.not_eq_true']
  constructor
  · rintro ⟨d', ⟨hd', hs⟩, hn⟩
    rwa [← name_injOn hd' hd hn]
  · exact fun hs => ⟨d, ⟨hd, hs⟩, rfl⟩

set_option maxRecDepth 100000 in
theorem shNames_eq : shNames =
    ["ShenandoahCompareAndExchangeP", "ShenandoahCompareAndExchangeN",
     "ShenandoahCompareAndSwapN", "ShenandoahCompareAndSwapP",
     "ShenandoahWeakCompareAndSwapN", "ShenandoahWeakCompareAndSwapP",
     "ShenandoahIUBarrier", "ShenandoahLoadReferenceBarrier"] := by decide!

set_option maxRecDepth 100000 in
theorem classes_length : classes.length = 456 := by decide!

theorem activeSequence_true : activeSequence true = classNames := by
  rw [activeSequence, activeOf_eq_filter, classNames, List.filter_eq_self.mpr]
  intro d _
  simp

theorem activeSequence_false_filter :
    activeSequence false = classNames.filter fun n => decide (n ∉ shNames) := by
  rw [activeSequence, activeOf_eq_filter, classNames, List.filter_map]
  refine congrArg (List.map Decl.name) (List.filter_congr ?_)
  intro d hd
  have h := mem_shNames_iff hd
  cases hs : d.isSh <;> simp [hs] at h ⊢ <;> exact h

set_option maxRecDepth 100000 in
theorem activeSequence_false_split :
    activeSequence false = classNames.take 264 ++ classNames.drop 272 := by
  rw [activeSequence, activeOf_eq_filter]
  decide!

/-- C3: for each value `b` of the gate, the active sequence of classes.hpp is the list,
in table order, of the entries declared with macro or declared with shmacro while `b` is
true.  It is what the gate classifier of the specification yields on the registry of the
table under any gate mapping that sends INCLUDE_SHENANDOAHGC to `b`; an entry is active
iff it is Always or its gate is true; and with `b = false` it is the table without its
eight shmacro entries. -/
theorem activeSequence_spec (b : Bool) :
    activeSequence b = (classes.filter fun d => !d.isSh || b).map Decl.name ∧
    (∀ gates : String → Bool, gates "INCLUDE_SHENANDOAHGC" = b →
      (gateClassifier gates registry).map Entry.name = activeSequence b) ∧
    (∀ d ∈ classes, d.name ∈ activeSequence b ↔ (d.isSh = false ∨ b = true)) ∧
    (∀ gates : String → Bool, gates "INCLUDE_SHENANDOAHGC" = b →
      ∀ d ∈ classes, d.name ∈ activeSequence b ↔ d.toEntry.isActive gates = true) ∧
    shNames =
      ["ShenandoahCompareAndExchangeP", "ShenandoahCompareAndExchangeN",
       "ShenandoahCompareAndSwapN", "ShenandoahCompareAndSwapP",
       "ShenandoahWeakCompareAndSwapN", "ShenandoahWeakCompareAndSwapP",
       "ShenandoahIUBarrier", "ShenandoahLoadReferenceBarrier"] ∧
    activeSequence false = (classNames.filter fun n => decide (n ∉ shNames)) ∧
    (activeSequence false).length + 8 = classNames.length := by
  refine ⟨activeOf_eq_filter classes b, ?_, fun d hd => mem_activeSequence_iff b hd, ?_,
    shNames_eq, activeSequence_false_filter, ?_⟩
  · intro gates hg
    rw [registry, gateClassifier_names, hg, activeSequence]
  · intro gates hg d hd
    rw [mem_activeSequence_iff b hd, toEntry_isActive, hg]
    simp
  · rw [activeSequence_false_split, classNames, List.length_append, List.length_take,
      List.length_drop, List.length_map, classes_length]
    rfl

/-! ## Order preservation and alignment of consumers -/

theorem activeOf_sublist (table : List Decl) (b : Bool) :
    (activeOf table b).Sublist (table.map Decl.name) := by
  rw [activeOf_eq_filter]
  exact (List.filter_sublist table).map Decl.name

theorem activeSequence_nodup (b : Bool) : (activeSequence b).Nodup :=
  (activeOf_sublist classes b).nodup classNames_nodup_aux

theorem sublist_indexOf_lt {l' l : List String} (hs : l'.Sublist l) (hn : l.Nodup)
    {i j : Nat} {x y : String} (hx : l'[i]? = some x) (hy : l'[j]? = some y) (hij : i < j) :
    l.indexOf x < l.indexOf y := by
  obtain ⟨f, hf⟩ := List.sublist_iff_exists_fin_orderEmbedding_get_eq.mp hs
  obtain ⟨hi, rfl⟩ := List.getElem?_eq_some.mp hx
  obtain ⟨hj, rfl⟩ := List.getElem?_eq_some.mp hy
  have e1 := hf ⟨i, hi⟩
  have e2 := hf ⟨j, hj⟩
  simp only [List.get_eq_getElem] at e1 e2
  rw [e1, e2, List.indexOf_getElem hn, List.indexOf_getElem hn]
  exact f.lt_iff_lt.mpr hij

theorem sublist_indexOf_lt_iff {l' l : List String} (hs : l'.Sublist l) (hn : l.Nodup)
    {i j : Nat} {x y : String} (hx : l'[i]? = some x) (hy : l'[j]? = some y) :
    i < j ↔ l.indexOf x < l.indexOf y := by
  refine ⟨sublist_indexOf_lt hs hn hx hy, fun h => ?_⟩
  rcases Nat.lt_trichotomy i j with hlt | heq | hgt
  · exact hlt
  · subst heq
    rw [hx] at hy
    cases hy
    exact absurd h (Nat.lt_irrefl _)
  · exact absurd (sublist_indexOf_lt hs hn hy hx hgt) (Nat.lt_asymm h)

/-- C4: for every value of the gate the active sequence is a subsequence of the full table
that keeps relative order: whenever `x` stands at position `i` and `y` at position `j` of
the active sequence, `i < j` holds exactly when `x` stands before `y` in the table. -/
theorem activeSequence_order_preserved (b : Bool) :
    (activeSequence b).Sublist classNames ∧
    ∀ (i j : Nat) (x y : String),
      (activeSequence b)[i]? = some x → (activeSequence b)[j]? = some y →
      (i < j ↔ classNames.indexOf x < classNames.indexOf y) :=
  ⟨activeOf_sublist classes b, fun _ _ _ _ hx hy =>
    sublist_indexOf_lt_iff (activeOf_sublist classes b) classNames_nodup_aux hx hy⟩

theorem generate_eq_map {α : Type} (b : Bool) (f : String → α) :
    generate b f = (activeSequence b).map f :=
  generateFrom_eq_map_active classes b f

/-- C5: for every gate value and every two consumer transforms `f` and `g`, the two
artifacts have the same length, the length of the active sequence, and at every index
`i` the `i`-th artifact of each is the transform of the same `i`-th active entry. -/
theorem generate_aligned {α β : Type} (b : Bool) (f : String → α) (g : String → β) :
    (generate b f).length = (generate b g).length ∧
    (generate b f).length = (activeSequence b).length ∧
    (generate b g).length = (activeSequence b).length ∧
    ∀ i : Nat, (generate b f)[i]? = ((activeSequence b)[i]?).map f ∧
      (generate b g)[i]? = ((activeSequence b)[i]?).map g := by
  simp [generate_eq_map]

/-! ## Opcodes and the name table -/

theorem enumFrom_lookup (n : String) :
    ∀ (l : List String) (s : Nat),
      (enumFrom s l).lookup n = if n ∈ l then some (s + l.indexOf n) else none
  | [], _ => by simp [enumFrom]
  | x :: xs, s => by
    by_cases h : n = x
    · subst h
      simp [enumFrom, List.lookup]
    · have h' : ¬ x = n := fun e => h e.symm
      have hb : (n == x) = false := by simpa using h
      simp only [enumFrom, List.lookup, hb, enumFrom_lookup n xs (s + 1), List.mem_cons, h,
        false_or, List.indexOf_cons_ne _ h']
      split
      · simp
        omega
      · simp

theorem nameTable_eq (b : Bool) : nameTable b = activeSequence b := by
  rw [nameTable, generate_eq_map, List.map_id']

theorem index_of_eq (b : Bool) (n : String) :
    index_of b n =
      if n ∈ activeSequence b then some ((activeSequence b).indexOf n) else none := by
  have h : generate b (fun x : String => x) = activeSequence b := by
    rw [generate_eq_map, List.map_id']
  rw [index_of, opcodes, h, enumFrom_lookup]
  simp

theorem index_of_eq_some_iff (b : Bool) (n : String) (i : Nat) :
    index_of b n = some i ↔ (activeSequence b)[i]? = some n := by
  rw [index_of_eq]
  constructor
  · intro h
    split at h
    · rename_i hm
      cases h
      exact List.getElem?_eq_some.mpr ⟨List.indexOf_lt_length.mpr hm, List.getElem_indexOf _⟩
    · cases h
  · intro h
    obtain ⟨hi, rfl⟩ := List.getElem?_eq_some.mp h
    rw [if_pos (List.getElem_mem _), List.indexOf_getElem (activeSequence_nodup b)]

/-- C6: name-table round trip.  For every gate value and every name `n` of the active
sequence, the enumeration consumer assigns `n` a position, and the name table holds `n`
at that position. -/
theorem nameTable_roundTrip (b : Bool) (n : String) (hn : n ∈ activeSequence b) :
    ∃ i, index_of b n = some i ∧ (nameTable b)[i]? = some n := by
  refine ⟨(activeSequence b).indexOf n, ?_, ?_⟩
  · rw [index_of_eq, if_pos hn]
  · rw [nameTable_eq]
    exact List.getElem?_eq_some.mpr ⟨List.indexOf_lt_length.mpr hn, List.getElem_indexOf _⟩

set_option maxRecDepth 100000 in
/-- Witness for C6 at the first entry after the shmacro block, with the gate false. -/
theorem nameTable_roundTrip_witness :
    "SCMemProj" ∈ activeSequence false ∧
    ∃ i, index_of false "SCMemProj" = some i ∧ (nameTable false)[i]? = some "SCMemProj" :=
  ⟨by rw [activeSequence_false_split]; decide!,
   nameTable_roundTrip false "SCMemProj" (by rw [activeSequence_false_split]; decide!)⟩

/-! ## Gate independence -/

theorem activeSequence_filter_notSh (b : Bool) :
    ((activeSequence b).filter fun n => decide (n ∉ shNames)) = activeSequence false := by
  cases b
  · rw [activeSequence_false_filter, List.filter_filter]
    simp
  · rw [activeSequence_true, activeSequence_false_filter]

/-- C7: gate independence.  Every macro entry is active under both gate values; a name
whose inclusion differs between the two gate values is a shmacro name; the active
sequence without the shmacro names is the same list under both gate values; and for any
transform the artifact rows of those other entries agree in content and order. -/
theorem gate_independence :
    (∀ d ∈ classes, d.isSh = false →
      d.name ∈ activeSequence true ∧ d.name ∈ activeSequence false) ∧
    (∀ n : String, ¬ (n ∈ activeSequence true ↔ n ∈ activeSequence false) → n ∈ shNames) ∧
    ((activeSequence true).filter fun n => decide (n ∉ shNames)) =
      ((activeSequence false).filter fun n => decide (n ∉ shNames)) ∧
    ∀ (α : Type) (f : String → α),
      ((generate true fun x => (x, f x)).filter fun p => decide (p.1 ∉ shNames)) =
        ((generate false fun x => (x, f x)).filter fun p => decide (p.1 ∉ shNames)) := by
  refine ⟨fun d hd hs => ⟨(mem_activeSequence_iff true hd).mpr (Or.inl hs),
    (mem_activeSequence_iff false hd).mpr (Or.inl hs)⟩, ?_, ?_, ?_⟩
  · intro n hn
    by_contra hsh
    apply hn
    rw [activeSequence_true, activeSequence_false_filter, List.mem_filter]
    simp [hsh]
  · rw [activeSequence_filter_notSh, activeSequence_filter_notSh]
  · intro α f
    have key : ∀ b : Bool,
        ((generate b fun x => (x, f x)).filter fun p => decide (p.1 ∉ shNames)) =
          (activeSequence false).map fun x => (x, f x) := by
      intro b
      rw [generate_eq_map, ← activeSequence_filter_notSh b, List.filter_map]
      rfl
    rw [key true, key false]

/-! ## Opcodes around the shmacro block -/

theorem classNames_length : classNames.length = 456 := by
  rw [classNames, List.length_map, classes_length]

theorem activeSequence_false_low {i : Nat} (hi : i < 264) :
    (activeSequence false)[i]? = classNames[i]? := by
  have hl : i < (classNames.take 264).length := by
    rw [List.length_take, classNames_length]
    omega
  rw [activeSequence_false_split, List.getElem?_append_left hl, List.getElem?_take_of_lt hi]

theorem activeSequence_false_high {i : Nat} (hi : 264 ≤ i) :
    (activeSequence false)[i]? = classNames[i + 8]? := by
  have hl : (classNames.take 264).length = 264 := by
    rw [List.length_take, classNames_length]
    rfl
  rw [activeSequence_false_split, List.getElem?_append_right (by omega), hl,
    List.getElem?_drop]
  exact congrArg (fun k => classNames[k]?) (by omega)

theorem index_of_false_shNames (n : String) (hn : n ∈ shNames) : index_of false n = none := by
  rw [index_of_eq, if_neg]
  rw [activeSequence_false_filter, List.mem_filter]
  simp [hn]

set_option maxRecDepth 100000 in
/-- C8: the opcode of an active entry is its 0-based index in the active sequence, and an
excluded shmacro entry has no opcode.  Every entry before the shmacro block (positions 0
to 263, `AbsD` to `SafePointScalarObject`) has its table position as opcode under both
gate values; every entry after the block (positions 272 to 455, `SCMemProj` to
`XorVMask`) has its table position as opcode with the gate true and 8 less with the gate
false, so `SCMemProj` is 272 with the gate true and 264 with it false. -/
theorem opcode_positions :
    (∀ (b : Bool) (n : String) (i : Nat),
      index_of b n = some i ↔ (activeSequence b)[i]? = some n) ∧
    (∀ n ∈ shNames, index_of false n = none) ∧
    (∀ i : Nat, i < 264 → ∃ n, classNames[i]? = some n ∧
      index_of true n = some i ∧ index_of false n = some i) ∧
    (∀ i : Nat, 272 ≤ i → i < 456 → ∃ n k, classNames[i]? = some n ∧
      index_of false n = some k ∧ index_of true n = some (k + 8) ∧ k + 8 = i) ∧
    classNames[0]? = some "AbsD" ∧ classNames[263]? = some "SafePointScalarObject" ∧
    classNames[272]? = some "SCMemProj" ∧ classNames[455]? = some "XorVMask" ∧
    index_of true "AbsD" = some 0 ∧ index_of false "AbsD" = some 0 ∧
    index_of true "SafePointScalarObject" = some 263 ∧
    index_of false "SafePointScalarObject" = some 263 ∧
    index_of true "SCMemProj" = some 272 ∧ index_of false "SCMemProj" = some 264 ∧
    index_of true "XorVMask" = some 455 ∧ index_of false "XorVMask" = some 447 := by
  have e0 : classNames[0]? = some "AbsD" := by decide!
  have e263 : classNames[263]? = some "SafePointScalarObject" := by decide!
  have e272 : classNames[272]? = some "SCMemProj" := by decide!
  have e455 : classNames[455]? = some "XorVMask" := by decide!
  have ht : ∀ (n : String) (i : Nat), classNames[i]? = some n → index_of true n = some i := by
    intro n i h
    rw [index_of_eq_some_iff, activeSequence_true]
    exact h
  have hlow : ∀ (n : String) (i : Nat), i < 264 → classNames[i]? = some n →
      index_of false n = some i := by
    intro n i hi h
    rw [index_of_eq_some_iff, activeSequence_false_low hi]
    exact h
  have hhigh : ∀ (n : String) (k : Nat), 264 ≤ k → classNames[k + 8]? = some n →
      index_of false n = some k := by
    intro n k hk h
    rw [index_of_eq_some_iff, activeSequence_false_high hk]
    exact h
  refine ⟨index_of_eq_some_iff, index_of_false_shNames, ?_, ?_, e0, e263, e272, e455,
    ht _ _ e0, hlow _ _ (by omega) e0, ht _ _ e263, hlow _ _ (by omega) e263,
    ht _ _ e272, hhigh _ 264 (by omega) e272, ht _ _ e455, hhigh _ 447 (by omega) e455⟩
  · intro i hi
    have hlen : i < classNames.length := by
      rw [classNames_length]
      omega
    exact ⟨classNames[i], List.getElem?_eq_getElem hlen,
      ht _ _ (List.getElem?_eq_getElem hlen), hlow _ _ hi (List.getElem?_eq_getElem hlen)⟩
  · intro i hi hi'
    have hlen : i < classNames.length := by
      rw [classNames_length]
      exact hi'
    have hk : i - 8 + 8 = i := by omega
    refine ⟨classNames[i], i - 8, List.getElem?_eq_getElem hlen, ?_, ?_, hk⟩
    · apply hhigh _ _ (by omega)
      rw [hk]
      exact List.getElem?_eq_getElem hlen
    · rw [hk]
      exact ht _ _ (List.getElem?_eq_getElem hlen)

/-! ## Table construction -/

theorem firstDuplicateFrom_spec :
    ∀ (l seen : List String), seen.Nodup →
      match firstDuplicateFrom seen l with
      | none => (seen ++ l).Nodup
      | some (n, i, j) =>
        i < j ∧ (seen ++ l)[i]? = some n ∧ (seen ++ l)[j]? = some n ∧
          ((seen ++ l).take j).Nodup
  | [], seen, hs => by simpa [firstDuplicateFrom] using hs
  | n :: rest, seen, hs => by
    by_cases hm : n ∈ seen
    · have hi : seen.indexOf n < seen.length := List.indexOf_lt_length.mpr hm
      simp only [firstDuplicateFrom, if_pos hm]
      refine ⟨hi, ?_, ?_, ?_⟩
      · rw [List.getElem?_append_left hi]
        exact List.getElem?_eq_some.mpr ⟨hi, List.getElem_indexOf hi⟩
      · rw [List.getElem?_append_right (Nat.le_refl _), Nat.sub_self]
        exact List.getElem?_cons_zero
      · simpa using hs
    · have hs' : (seen ++ [n]).Nodup := by
        rw [List.nodup_append]
        refine ⟨hs, List.nodup_singleton n, ?_⟩
        intro a ha hb
        rw [List.mem_singleton] at hb
        exact hm (hb ▸ ha)
      have ih := firstDuplicateFrom_spec rest (seen ++ [n]) hs'
      simp only [firstDuplicateFrom, if_neg hm]
      rwa [List.append_assoc, List.singleton_append] at ih

theorem firstUnknownGate_none (known : List String) :
    ∀ table : List Entry,
      (∀ e ∈ table, ∀ g, e.mode = InclusionMode.Optional g → g ∈ known) →
      firstUnknownGate known table = none
  | [], _ => rfl
  | e :: rest, h => by
    have ih := firstUnknownGate_none known rest fun e he => h e (List.mem_cons_of_mem _ he)
    unfold firstUnknownGate
    split
    · exact ih
    · rename_i gate hg
      rw [if_pos (h e (List.mem_cons_self _ _) gate hg)]
      exact ih

theorem finalize_duplicate (gates : List (String × Bool)) (table : List Entry)
    (hd : ¬ (table.map Entry.name).Nodup) :
    ∃ n i j, finalize gates table = Except.error (RegistryError.DuplicateEntryError n i j) ∧
      i < j ∧ (table.map Entry.name)[i]? = some n ∧ (table.map Entry.name)[j]? = some n ∧
      ((table.map Entry.name).take j).Nodup := by
  have h := firstDuplicateFrom_spec (table.map Entry.name) [] List.nodup_nil
  unfold finalize
  cases hf : firstDuplicateFrom [] (table.map Entry.name) with
  | none =>
    rw [hf] at h
    exact absurd (by simpa using h) hd
  | some r =>
    obtain ⟨n, i, j⟩ := r
    rw [hf] at h
    exact ⟨n, i, j, rfl, by simpa using h⟩

theorem finalize_ok (gates : List (String × Bool)) (table : List Entry)
    (hd : (table.map Entry.name).Nodup)
    (hg : ∀ e ∈ table, ∀ g, e.mode = InclusionMode.Optional g → g ∈ gates.map Prod.fst) :
    finalize gates table = Except.ok table := by
  have h := firstDuplicateFrom_spec (table.map Entry.name) [] List.nodup_nil
  unfold finalize
  cases hf : firstDuplicateFrom [] (table.map Entry.name) with
  | none => simp [firstUnknownGate_none _ table hg]
  | some r =>
    obtain ⟨n, i, j⟩ := r
    rw [hf] at h
    obtain ⟨hij, hi, hj, _⟩ := h
    simp only [List.nil_append] at hi hj
    obtain ⟨hi', ei⟩ := List.getElem?_eq_some.mp hi
    obtain ⟨hj', ej⟩ := List.getElem?_eq_some.mp hj
    have := (List.Nodup.getElem_inj_iff hd).mp (ei.trans ej.symm)
    omega

theorem registerAll_ok :
    ∀ (decls : List (String × InclusionMode)) (table : List Entry),
      (∀ p ∈ decls, isIdentifier p.1 = true) →
      registerAll table decls = Except.ok (table ++ decls.map fun p => Entry.mk p.1 p.2)
  | [], table, _ => by simp [registerAll]
  | (n, m) :: rest, table, h => by
    have hn : isIdentifier n = true := h (n, m) (List.mem_cons_self _ _)
    have ih := registerAll_ok rest (table ++ [Entry.mk n m]) fun p hp =>
      h p (List.mem_cons_of_mem _ hp)
    simp only [registerAll, register, if_pos hn, ih, List.append_assoc, List.singleton_append,
      List.map_cons]

theorem build_ok (gates : List (String × Bool)) (decls : List (String × InclusionMode))
    (hi : ∀ p ∈ decls, isIdentifier p.1 = true) (hd : (decls.map Prod.fst).Nodup)
    (hg : ∀ p ∈ decls, ∀ g, p.2 = InclusionMode.Optional g → g ∈ gates.map Prod.fst) :
    build gates decls = Except.ok (decls.map fun p => Entry.mk p.1 p.2) := by
  simp only [build, registerAll_ok decls [] hi, List.nil_append]
  apply finalize_ok
  · rwa [List.map_map]
  · intro e he g hm
    obtain ⟨p, hp, rfl⟩ := List.mem_map.mp he
    exact hg p hp g hm

theorem registry_names : registry.map Entry.name = classNames := by
  rw [registry, classNames, List.map_map]
  exact List.map_congr_left fun d _ => toEntry_name d

theorem declarations_entries :
    (declarations.map fun p => Entry.mk p.1 p.2) = registry := by
  rw [declarations, registry, List.map_map]
  exact List.map_congr_left fun d _ => rfl

theorem declarations_names : declarations.map Prod.fst = classNames := by
  rw [declarations, classNames, List.map_map]
  exact List.map_congr_left fun d _ => toEntry_name d

theorem build_classes (b : Bool) :
    build [("INCLUDE_SHENANDOAHGC", b)] declarations = Except.ok registry := by
  rw [← declarations_entries]
  apply build_ok
  · intro p hp
    have hm : p.1 ∈ classNames := by
      rw [← declarations_names]
      exact List.mem_map_of_mem _ hp
    exact List.all_eq_true.mp classNames_all_identifiers _ hm
  · rw [declarations_names]
    exact classNames_nodup_aux
  · intro p hp g hm
    obtain ⟨d, _, rfl⟩ := List.mem_map.mp hp
    cases d with
    | macro_ x => cases hm
    | shmacro_ x =>
      cases hm
      simp

/-- C10: `finalize` fails with `DuplicateEntryError` whenever some name occurs more than
once, and the error names the first offending duplicate: its second index `j` is the
least position whose name occurred before (the names before `j` are distinct) and its
first index `i < j` holds the same name; on the entries `Foo`, `Foo` it reports `Foo`
with indices 0 and 1.  `finalize` succeeds on a table with no duplicate, no malformed
name and no unknown gate, and so does the construction from a declaration list, in
particular from the declarations of classes.hpp. -/
theorem finalize_contract :
    (∀ (gates : List (String × Bool)) (table : List Entry),
      ¬ (table.map Entry.name).Nodup →
      ∃ n i j, finalize gates table = Except.error (RegistryError.DuplicateEntryError n i j) ∧
        i < j ∧ (table.map Entry.name)[i]? = some n ∧ (table.map Entry.name)[j]? = some n ∧
        ((table.map Entry.name).take j).Nodup) ∧
    (∀ gates : List (String × Bool),
      finalize gates [Entry.mk "Foo" InclusionMode.Always, Entry.mk "Foo" InclusionMode.Always]
        = Except.error (RegistryError.DuplicateEntryError "Foo" 0 1)) ∧
    (∀ (gates : List (String × Bool)) (table : List Entry),
      (table.map Entry.name).Nodup → (∀ e ∈ table, isIdentifier e.name = true) →
      (∀ e ∈ table, ∀ g, e.mode = InclusionMode.Optional g → g ∈ gates.map Prod.fst) →
      finalize gates table = Except.ok table) ∧
    (∀ (gates : List (String × Bool)) (decls : List (String × InclusionMode)),
      (decls.map Prod.fst).Nodup → (∀ p ∈ decls, isIdentifier p.1 = true) →
      (∀ p ∈ decls, ∀ g, p.2 = InclusionMode.Optional g → g ∈ gates.map Prod.fst) →
      build gates decls = Except.ok (decls.map fun p => Entry.mk p.1 p.2)) ∧
    (∀ b : Bool, build [("INCLUDE_SHENANDOAHGC", b)] declarations = Except.ok registry) := by
  refine ⟨finalize_duplicate, ?_, fun gates table hd _ hg => finalize_ok gates table hd hg,
    fun gates decls hd hi hg => build_ok gates decls hi hd hg, build_classes⟩
  intro gates
  simp [finalize, firstDuplicateFrom]

/-! ## The soft gate -/

theorem expand_cons {α : Type} (b : Bool) (m o : String → List α) (d : Decl) (t : List Decl) :
    expand b m o (d :: t) = expandDecl b m o d ++ expand b m o t := by
  simp [expand]

theorem expand_asMacro {α : Type} (b : Bool) (m o : String → List α) :
    ∀ table : List Decl,
      expand b m o (table.map Decl.asMacro) = (table.map Decl.name).flatMap m
  | [] => rfl
  | d :: t => by
    rw [List.map_cons, expand_cons, expand_asMacro b m o t, List.map_cons, List.flatMap_cons]
    cases d <;> rfl

theorem expand_true {α : Type} (m o : String → List α) :
    ∀ table : List Decl, expand true m o table = (table.map Decl.name).flatMap m
  | [] => rfl
  | d :: t => by
    rw [expand_cons, expand_true m o t, List.map_cons, List.flatMap_cons]
    cases d <;> rfl

theorem asMacro_eq (d : Decl) : d.asMacro = Decl.macro_ d.name := by
  cases d <;> rfl

/-- C11: the soft gate behaves as Always when its capability is present.  With
INCLUDE_SHENANDOAHGC true, `shmacro(x)` expands to what `macro(x)` expands to, for every
`x` and every consumer; so the active sequence is the whole table, all 456 names in table
order, and every consumer obtains from classes.hpp what it obtains from the table in
which the shmacro lines are written with macro (a table of macro lines only, whose
expansion does not depend on the gate).  With the capability absent, `shmacro(x)` expands
to what `optionalmacro(x)` expands to. -/
theorem shmacro_soft_gate :
    (∀ (α : Type) (m o : String → List α) (x : String),
      expandDecl true m o (Decl.shmacro_ x) = m x ∧
      expandDecl true m o (Decl.shmacro_ x) = expandDecl true m o (Decl.macro_ x)) ∧
    (∀ (α : Type) (m o : String → List α) (x : String),
      expandDecl false m o (Decl.shmacro_ x) = o x) ∧
    activeSequence true = classNames ∧ (activeSequence true).length = 456 ∧
    classesAllMacro = classNames.map Decl.macro_ ∧
    (∀ (α : Type) (m o : String → List α) (b : Bool),
      expand true m o classes = expand b m o classesAllMacro) ∧
    (∀ b : Bool, activeSequence true = activeOf classesAllMacro b) ∧
    (∀ (α : Type) (f : String → α) (b : Bool),
      generate true f = generateFrom classesAllMacro b f) := by
  have hx : ∀ (α : Type) (m o : String → List α) (b : Bool),
      expand true m o classes = expand b m o classesAllMacro := by
    intro α m o b
    rw [classesAllMacro, expand_asMacro, expand_true]
  refine ⟨fun _ _ _ _ => ⟨rfl, rfl⟩, fun _ _ _ _ => rfl, activeSequence_true, ?_, ?_, hx,
    fun b => hx _ _ _ b, fun α f b => hx _ _ _ b⟩
  · rw [activeSequence_true, classNames_length]
  · rw [classesAllMacro, classNames, List.map_map]
    exact List.map_congr_left fun d _ => asMacro_eq d

/-! ## Position and names of the shmacro block -/

theorem shPositionsFrom_ge :
    ∀ (l : List Decl) (k j : Nat), j ∈ shPositionsFrom k l → k ≤ j
  | [], _, _, h => by simp [shPositionsFrom] at h
  | d :: l, k, j, h => by
    have ih := shPositionsFrom_ge l (k + 1) j
    unfold shPositionsFrom at h
    split at h
    · rcases List.mem_cons.mp h with rfl | h'
      · exact Nat.le_refl _
      · exact Nat.le_of_succ_le (ih h')
    · exact Nat.le_of_succ_le (ih h)

theorem shPositionsFrom_mem :
    ∀ (l : List Decl) (k i : Nat) (d : Decl), l[i]? = some d →
      (d.isSh = true ↔ k + i ∈ shPositionsFrom k l)
  | [], _, _, _, h => by simp at h
  | d0 :: l, k, 0, d, h => by
    rw [List.getElem?_cons_zero] at h
    cases h
    have hge := shPositionsFrom_ge l (k + 1) k
    unfold shPositionsFrom
    by_cases hs : d0.isSh = true
    · simp [hs]
    · rw [if_neg hs]
      exact ⟨fun h => absurd h hs, fun h => absurd (hge h) (Nat.not_succ_le_self k)⟩
  | d0 :: l, k, i + 1, d, h => by
    rw [List.getElem?_cons_succ] at h
    have ih := shPositionsFrom_mem l (k + 1) i d h
    have e : k + 1 + i = k + (i + 1) := by omega
    rw [e] at ih
    unfold shPositionsFrom
    split
    · rw [List.mem_cons, ih]
      exact ⟨Or.inr, fun h => h.resolve_left (by omega)⟩
    · exact ih

set_option maxRecDepth 100000 in
theorem shPositions_classes :
    shPositionsFrom 0 classes = [264, 265, 266, 267, 268, 269, 270, 271] := by decide!

set_option maxRecDepth 100000 in
theorem classes_sh_startsWith :
    (classes.all fun d => d.isSh == startsWith "Shenandoah" d.name) = true := by decide!

theorem startsWith_iff (p s : String) :
    startsWith p s = true ↔ ∃ rest : List Char, s.data = p.data ++ rest := by
  rw [startsWith, List.isPrefixOf_iff_prefix]
  exact ⟨fun ⟨t, ht⟩ => ⟨t, ht.symm⟩, fun ⟨t, ht⟩ => ⟨t, ht.symm⟩⟩

theorem isSh_iff_startsWith {d : Decl} (hd : d ∈ classes) :
    d.isSh = true ↔ startsWith "Shenandoah" d.name = true := by
  have h := List.all_eq_true.mp classes_sh_startsWith d hd
  rw [beq_iff_eq] at h
  rw [h]

/-- C12: the gated entries of the table are exactly the eight consecutive entries at
0-based positions 264 to 271; they are exactly the entries whose name starts with
`Shenandoah`; each of them is optional on the one gate INCLUDE_SHENANDOAHGC, the only
gate the registry of the table mentions.  The table has 456 entries, and the active
sequence has 456 entries with the gate true and 448 with the gate false. -/
theorem shmacro_block :
    shPositionsFrom 0 classes = [264, 265, 266, 267, 268, 269, 270, 271] ∧
    (∀ (i : Nat) (d : Decl), classes[i]? = some d →
      (d.isSh = true ↔ 264 ≤ i ∧ i ≤ 271)) ∧
    (∀ d ∈ classes, d.isSh = true ↔ startsWith "Shenandoah" d.name = true) ∧
    (∀ d ∈ classes,
      d.isSh = true ↔ ∃ rest : List Char, d.name.data = "Shenandoah".data ++ rest) ∧
    (∀ d ∈ classes, d.isSh = true →
      d.toEntry.mode = InclusionMode.Optional "INCLUDE_SHENANDOAHGC") ∧
    (∀ d ∈ classes, d.isSh = false → d.toEntry.mode = InclusionMode.Always) ∧
    (∀ e ∈ registry, ∀ g, e.mode = InclusionMode.Optional g → g = "INCLUDE_SHENANDOAHGC") ∧
    (classes.filter Decl.isSh).length = 8 ∧
    classes.length = 456 ∧
    (activeSequence true).length = 456 ∧ (activeSequence false).length = 448 := by
  have hlen8 : (classes.filter Decl.isSh).length = 8 := by
    have h := congrArg List.length shNames_eq
    rw [shNames, List.length_map] at h
    exact h
  have hfalse : (activeSequence false).length = 448 := by
    rw [activeSequence_false_split, List.length_append, List.length_take, List.length_drop,
      classNames_length]
    rfl
  refine ⟨shPositions_classes, ?_, fun d hd => isSh_iff_startsWith hd,
    fun d hd => (isSh_iff_startsWith hd).trans (startsWith_iff _ _), ?_, ?_, ?_, hlen8,
    classes_length, ?_, hfalse⟩
  · intro i d h
    have hm := shPositionsFrom_mem classes 0 i d h
    rw [Nat.zero_add, shPositions_classes] at hm
    rw [hm]
    simp only [List.mem_cons, List.mem_singleton, List.not_mem_nil, or_false]
    omega
  · intro d _ hs
    cases d with
    | macro_ x => cases hs
    | shmacro_ x => rfl
  · intro d _ hs
    cases d with
    | macro_ x => rfl
    | shmacro_ x => cases hs
  · intro e he g hg
    obtain ⟨d, _, rfl⟩ := List.mem_map.mp he
    cases d with
    | macro_ x => cases hg
    | shmacro_ x =>
      cases hg
      rfl
  · rw [activeSequence_true, classNames_length]

end Classes
